import Mathlib

/-!
# Cal Events Discovery — client-side filtering core, shallow embedding

This file embeds the client-side event filtering engine of the
Cal Events Discovery application (the `App.tsx` listing: `SEARCH_SYNONYMS`,
`expandSearchQuery`, `WHOLE_WORD_ONLY`, `BERKELEY_LOCATIONS`, `isHomeGame`,
`eventMatchesSearch`, and the `filteredEvents` pipeline) into Lean 4, and
proves or refutes the specified properties of that engine.

Modelling conventions:
* JavaScript strings are Lean `String`s; `toLowerCase`, `trim`,
  `includes`, `split(/\s+/)` are given explicit executable models below
  (ASCII-faithful, which covers all vocabulary data and test inputs).
* Fields of an event that may be `undefined`/`null` at runtime are
  `Option`-valued; `none` models an absent/null field.
* Instants are minutes since the Unix epoch (`Int`).  The host timezone is
  a constant offset `tz` in minutes (local time = UTC + tz).  JavaScript
  `new Date("YYYY-MM-DD")` parses a well-formed date-only string as UTC
  midnight; `new Date()` is the current instant; `setHours(0,0,0,0)` and
  `toDateString()` work in the local zone.  All of these are modelled
  explicitly.
* A JavaScript `TypeError` (e.g. calling `.toLowerCase()` on `undefined`)
  is modelled with `Except String`; `Array.prototype.filter` aborts at the
  first exception, modelled by `filterE`.
-/

/-- Model of JavaScript `String.prototype.toLowerCase` (ASCII). -/
def lowerStr (s : String) : String := ⟨s.data.map Char.toLower⟩

/-- Drop leading whitespace from a character list. -/
def dropWs (l : List Char) : List Char := l.dropWhile (fun c => c.isWhitespace)

/-- Model of JavaScript `String.prototype.trim`: remove whitespace from both
ends. -/
def trimStr (s : String) : String := ⟨((dropWs s.data).reverse |> dropWs).reverse⟩

/-- `prefixAt needle hay` is true iff `needle` is a prefix of `hay`. -/
def prefixAt : List Char → List Char → Bool
  | [], _ => true
  | _ :: _, [] => false
  | a :: ns, b :: hs => a == b && prefixAt ns hs

/-- `subOccurs needle hay` is true iff `needle` occurs as a contiguous
substring of `hay`; model of JavaScript `String.prototype.includes`. -/
def subOccurs (needle : List Char) : List Char → Bool
  | [] => prefixAt needle []
  | c :: rest => prefixAt needle (c :: rest) || subOccurs needle rest

/-- Model of JavaScript `hay.includes(needle)` on strings. -/
def strIncludes (hay needle : String) : Bool := subOccurs needle.data hay.data

/-- Helper for `splitWsWords`: accumulate the current (reversed) word. -/
def splitWsAux (cur : List Char) : List Char → List (List Char)
  | [] => if cur.isEmpty then [] else [cur.reverse]
  | c :: rest =>
    if c.isWhitespace then
      if cur.isEmpty then splitWsAux [] rest
      else cur.reverse :: splitWsAux [] rest
    else splitWsAux (c :: cur) rest

/-- Model of JavaScript `s.split(/\s+/)` on an already-trimmed string: the
maximal whitespace-free words of `s`, in order.  (For a trimmed non-empty
string this is exactly the JS result; for `""` JS yields `[""]` while this
yields `[]` — membership of any non-empty key is unaffected.) -/
def splitWsWords (s : String) : List String := (splitWsAux [] s.data).map (fun l => ⟨l⟩)

/-- Model of JavaScript `[...new Set(l)]` : keep the first occurrence of
each element, in order.  `seen` holds the elements already emitted. -/
def dedupAux (seen : List String) : List String → List String
  | [] => []
  | x :: xs => if x ∈ seen then dedupAux seen xs else x :: dedupAux (x :: seen) xs

/-- `dedupList l` removes duplicates from `l` keeping first occurrences. -/
def dedupList (l : List String) : List String := dedupAux [] l

/-! ## The vocabulary data (verbatim from the source) -/

/-- `SEARCH_SYNONYMS` from the source: a fixed mapping from a canonical
term to its related search terms, in object-literal insertion order. -/
def SEARCH_SYNONYMS : List (String × List String) := [
  ("ai", ["artificial intelligence", "machine learning", "ml", "deep learning", "neural network"]),
  ("artificial intelligence", ["ai", "machine learning", "ml", "deep learning"]),
  ("machine learning", ["ml", "ai", "artificial intelligence", "deep learning"]),
  ("ml", ["machine learning", "ai", "artificial intelligence"]),
  ("tech", ["technology", "computer", "software", "engineering", "science & tech"]),
  ("technology", ["tech", "computer", "software", "engineering"]),
  ("music", ["concert", "performance", "jazz", "classical", "orchestra", "recital"]),
  ("concert", ["music", "performance", "show", "live"]),
  ("sports", ["athletics", "game", "match", "basketball", "football", "volleyball"]),
  ("basketball", ["sports", "game", "hoops", "cal bears"]),
  ("football", ["sports", "game", "cal bears"]),
  ("lecture", ["talk", "presentation", "seminar", "speaker", "academic"]),
  ("talk", ["lecture", "presentation", "seminar", "speaker"]),
  ("workshop", ["class", "training", "hands-on", "session"]),
  ("art", ["arts", "exhibition", "gallery", "museum", "visual"]),
  ("arts", ["art", "exhibition", "gallery", "performance", "theater", "theatre"]),
  ("theater", ["theatre", "play", "drama", "performance", "arts"]),
  ("theatre", ["theater", "play", "drama", "performance", "arts"]),
  ("film", ["movie", "cinema", "screening"]),
  ("movie", ["film", "cinema", "screening"]),
  ("health", ["wellness", "medical", "healthcare", "public health"]),
  ("wellness", ["health", "mental health", "self-care"]),
  ("career", ["job", "employment", "professional", "networking", "recruiting"]),
  ("job", ["career", "employment", "hiring", "internship"]),
  ("diversity", ["dei", "inclusion", "equity", "multicultural"]),
  ("dei", ["diversity", "equity", "inclusion"])]

/-- The own-key part of the JS property lookup `SEARCH_SYNONYMS[normalized]`:
the first entry of the object literal whose key is `normalized`, if any. -/
def synLookup (k : String) : Option (List String) :=
  (SEARCH_SYNONYMS.find? (fun p => p.1 == k)).map (fun p => p.2)

/-- The lookup `SEARCH_SYNONYMS[normalized]` is a JS property access on a
plain object literal, so it also consults the prototype chain.  The
normalized query is lowercased, and the only all-lowercase property names
of `Object.prototype` are `constructor` (the `Object` constructor
function) and `__proto__` (`Object.prototype` itself); for exactly these
two normalized queries the access yields a truthy non-iterable inherited
value, and `terms.push(...SEARCH_SYNONYMS[normalized])` then raises a
TypeError. -/
def PROTO_CHAIN_KEYS : List String := ["constructor", "__proto__"]

/-- The terms `expandSearchQuery` accumulates on its non-throwing path:
normalize the query (lowercase, trim), start from the normalized query
itself, add the related terms of a directly-matching own key, then for
every entry whose key equals one of the query's whitespace-delimited words
or the whole normalized query add its related terms, and finally
deduplicate (`[...new Set(terms)]`). -/
def expandedTermsOf (query : String) : List String :=
  let normalized := trimStr (lowerStr query)
  let terms0 := [normalized]
  let terms1 := terms0 ++ (match synLookup normalized with
    | some syns => syns
    | none => [])
  let queryWords := splitWsWords normalized
  let terms2 := SEARCH_SYNONYMS.foldl
    (fun acc kv => if kv.1 ∈ queryWords || kv.1 == normalized then acc ++ kv.2 else acc)
    terms1
  dedupList terms2

/-- `expandSearchQuery` from the source.  When the normalized query hits
an inherited `Object.prototype` property (see `PROTO_CHAIN_KEYS`) the
guard `if (SEARCH_SYNONYMS[normalized])` is truthy and spreading the
non-iterable inherited value raises a TypeError; otherwise the function
returns the accumulated, deduplicated term list. -/
def expandSearchQuery (query : String) : Except String (List String) :=
  let normalized := trimStr (lowerStr query)
  if normalized ∈ PROTO_CHAIN_KEYS then
    Except.error "TypeError: spread of non-iterable inherited property"
  else
    Except.ok (expandedTermsOf query)

/-- `WHOLE_WORD_ONLY` from the source: short terms that must match as whole
words only. -/
def WHOLE_WORD_ONLY : List String := ["ai", "ml", "ar", "vr", "it", "cs"]

/-- `BERKELEY_LOCATIONS` from the source: the home-game location
allowlist. -/
def BERKELEY_LOCATIONS : List String := [
  "berkeley", "uc berkeley", "cal ", "memorial stadium", "haas pavilion",
  "edwards stadium", "evans diamond", "hearst", "recreational sports facility",
  "rsf", "zellerbach", "wheeler", "dwinelle", "soda hall", "cory hall",
  "doe library", "moffitt", "bancroft", "sproul", "mlk student union",
  "california memorial", "greek theatre", "hearst greek"]

/-! ## Whole-word regex matching -/

/-- JavaScript `\w` word characters: `[A-Za-z0-9_]`. -/
def isWordChar (c : Char) : Bool := c.isAlphanum || c == '_'

/-- `\b` holds before the match when the preceding character (if any) is a
non-word character.  (The matched terms consist of word characters only.) -/
def boundaryBefore : Option Char → Bool
  | none => true
  | some c => !isWordChar c

/-- `\b` holds after the match when the following character (if any) is a
non-word character. -/
def boundaryAfter : List Char → Bool
  | [] => true
  | c :: _ => !isWordChar c

/-- Scan `hay` for an occurrence of `term` flanked by word boundaries;
`prev` is the character just before the current position.  Model of
`new RegExp("\\b" + term + "\\b", "i").test(hay)` for a lowercase `term`
made of word characters against an already-lowercased `hay`. -/
def wwScan (term : List Char) (prev : Option Char) : List Char → Bool
  | [] => prefixAt term [] && boundaryBefore prev && boundaryAfter []
  | c :: rest =>
    (prefixAt term (c :: rest) && boundaryBefore prev
      && boundaryAfter ((c :: rest).drop term.length))
    || wwScan term (some c) rest

/-- Whole-word test of `term` against `hay`. -/
def wholeWordTest (hay term : String) : Bool := wwScan term.data none hay.data

/-! ## The event model and the four predicates -/

/-- The `CalEvent` record (from `types.ts`).  Every field the filtering
core reads is `Option`-valued so that an absent/`null` runtime field (a
shape the ingestion contract forbids but the core may still receive) is
representable as `none`. -/
structure CalEvent where
  id : Option String
  title : Option String
  organizer : Option String
  date : Option String
  time : Option String
  location : Option String
  description : Option String
  tags : Option (List String)
  url : Option String
deriving DecidableEq, Repr

/-- The `SearchFilters` record (from `types.ts`); `dateRange` is kept as a
string to cover all five contract values
`upcoming | today | week | month | weekend`. -/
structure SearchFilters where
  dateRange : String
  category : String
  searchQuery : String
deriving DecidableEq, Repr

/-- The searchable haystack of `eventMatchesSearch`:
`[title, description, organizer, ...(tags || [])].join(' ').toLowerCase()`.
`Array.prototype.join` renders an `undefined` element as the empty
string. -/
def searchableTextOf (e : CalEvent) : String :=
  lowerStr (String.intercalate " "
    ([e.title.getD "", e.description.getD "", e.organizer.getD ""] ++ e.tags.getD []))

/-- One term of `eventMatchesSearch`: whole-word mode for the
`WHOLE_WORD_ONLY` tokens, substring mode otherwise. -/
def termMatches (hay term : String) : Bool :=
  if term ∈ WHOLE_WORD_ONLY then wholeWordTest hay term else strIncludes hay term

/-- `eventMatchesSearch` from the source: the event matches when any term
of the expanded set matches its searchable text. -/
def eventMatchesSearch (e : CalEvent) (searchTerms : List String) : Bool :=
  searchTerms.any (fun term => termMatches (searchableTextOf e) term)

/-- The tag-based sports test inside `isHomeGame`:
`event.tags?.some(tag => tag.toLowerCase().includes('sport'))`; an absent
`tags` field yields `undefined`, which is falsy. -/
def isSportsEventOf (e : CalEvent) : Bool :=
  (e.tags.getD []).any (fun tag => strIncludes (lowerStr tag) "sport")

/-- `isHomeGame` from the source.  Non-sports events pass through.  For a
sports event the code evaluates `event.location.toLowerCase()`
unconditionally: when `location` is absent/`null` this raises a
`TypeError`, modelled as `Except.error`. -/
def isHomeGame (e : CalEvent) : Except String Bool :=
  if !isSportsEventOf e then Except.ok true
  else
    match e.location with
    | none => Except.error "TypeError: cannot read toLowerCase of undefined location"
    | some loc =>
      Except.ok (BERKELEY_LOCATIONS.any (fun l => strIncludes (lowerStr loc) l))

/-- The category predicate of the pipeline:
`filters.category === 'All' || event.tags?.some(t =>
t.toLowerCase().includes(category.toLowerCase())) ||
event.tags?.includes(category)`. -/
def matchesCategoryOf (category : String) (e : CalEvent) : Bool :=
  category == "All"
  || (e.tags.getD []).any (fun t => strIncludes (lowerStr t) (lowerStr category))
  || decide (category ∈ e.tags.getD [])

/-! ## Date-window machinery -/

/-- Days in a month of the (proleptic) Gregorian calendar. -/
def daysInMonth (y m : Int) : Int :=
  if m == 2 then (if (y % 4 == 0 && y % 100 != 0) || y % 400 == 0 then 29 else 28)
  else if m == 4 || m == 6 || m == 9 || m == 11 then 30
  else 31

/-- Days from the Unix epoch (1970-01-01) to civil date `(y, m, d)`;
Gregorian civil-from-days arithmetic. -/
def daysFromCivil (y m d : Int) : Int :=
  let yy := if m ≤ 2 then y - 1 else y
  let era := yy.fdiv 400
  let yoe := yy - era * 400
  let mp := (m + 9) % 12
  let doy := (153 * mp + 2).fdiv 5 + d - 1
  let doe := yoe * 365 + yoe.fdiv 4 - yoe.fdiv 100 + doy
  era * 146097 + doe - 719468

/-- Numeric value of a decimal digit character. -/
def digitVal (c : Char) : Int := (c.toNat : Int) - 48

/-- Model of JavaScript `new Date(s).getTime()` (in minutes) for the
snapshot contract's date-only strings: a well-formed `YYYY-MM-DD` string
parses as UTC midnight of that civil date; anything else is an Invalid
Date (`none`), whose numeric value is `NaN`. -/
def jsParseDate (s : String) : Option Int :=
  match s.data with
  | [y1, y2, y3, y4, h1, m1, m2, h2, d1, d2] =>
    if y1.isDigit && y2.isDigit && y3.isDigit && y4.isDigit
        && h1 == '-' && m1.isDigit && m2.isDigit
        && h2 == '-' && d1.isDigit && d2.isDigit then
      let y := digitVal y1 * 1000 + digitVal y2 * 100 + digitVal y3 * 10 + digitVal y4
      let m := digitVal m1 * 10 + digitVal m2
      let d := digitVal d1 * 10 + digitVal d2
      if 1 ≤ m && m ≤ 12 && 1 ≤ d && d ≤ daysInMonth y m then
        some (daysFromCivil y m d * 1440)
      else none
    else none
  | _ => none

/-- The local civil day number of instant `t` under constant offset `tz`
(minutes east of UTC): two instants render to the same
`Date.prototype.toDateString()` exactly when their local day numbers
agree. -/
def localDayOf (tz t : Int) : Int := (t + tz).fdiv 1440

/-- Model of `const today = new Date(); today.setHours(0,0,0,0)`: the
instant of local midnight of `now`'s local day. -/
def todayMidnightOf (tz now : Int) : Int := localDayOf tz now * 1440 - tz

/-- The date predicate of the pipeline.  `eventDate = new Date(event.date)`
(UTC-midnight parse, Invalid Date for malformed input; `new Date(undefined)`
is also Invalid).  `today` branch: `eventDate.toDateString() ===
today.toDateString()` — Invalid Date renders as `"Invalid Date"` and never
equals a real date string.  `week` branch: `eventDate >= today &&
eventDate <= nextWeek` where `nextWeek = new Date()` then
`nextWeek.setDate(today.getDate() + 7)`, i.e. `now` shifted 7 civil days
forward, which under a constant offset is `now + 7·1440` minutes;
comparisons against `NaN` are false.  Any other `dateRange` leaves
`matchesDate = true`. -/
def matchesDateOf (tz now : Int) (dateRange : String) (date : Option String) : Bool :=
  let eventDate := match date with
    | some s => jsParseDate s
    | none => none
  if dateRange == "today" then
    match eventDate with
    | none => false
    | some t => localDayOf tz t == localDayOf tz now
  else if dateRange == "week" then
    match eventDate with
    | none => false
    | some t => todayMidnightOf tz now ≤ t && t ≤ now + 7 * 1440
  else true

/-! ## The filter pipeline -/

/-- The search predicate of the pipeline: `matchesSearch` stays `true`
when the trimmed query is empty; otherwise the trimmed query is expanded
(which may raise a TypeError, see `expandSearchQuery`) and matched. -/
def matchesSearchOf (searchQuery : String) (e : CalEvent) : Except String Bool :=
  let sq := trimStr searchQuery
  if sq == "" then Except.ok true
  else do
    let expandedTerms ← expandSearchQuery sq
    pure (eventMatchesSearch e expandedTerms)

/-- Total view of the search predicate: the value `matchesSearchOf`
returns when it returns, and `false` where the code would raise. -/
def matchesSearchPure (searchQuery : String) (e : CalEvent) : Bool :=
  (matchesSearchOf searchQuery e).toOption.getD false

/-- The per-event body of `allEvents.filter(...)`: all four predicate
values are computed in source order (category and date are total; the
search expansion and `isHomeGame` may raise, the search one first), then
conjoined. -/
def eventPasses (tz now : Int) (f : SearchFilters) (e : CalEvent) : Except String Bool := do
  let mc := matchesCategoryOf f.category e
  let md := matchesDateOf tz now f.dateRange e.date
  let ms ← matchesSearchOf f.searchQuery e
  let il ← isHomeGame e
  pure (mc && md && ms && il)

/-- Model of `Array.prototype.filter` with a predicate that may raise: the
first exception aborts the whole pass. -/
def filterE (p : CalEvent → Except String Bool) : List CalEvent → Except String (List CalEvent)
  | [] => Except.ok []
  | e :: es => do
    let b ← p e
    let rest ← filterE p es
    pure (if b then e :: rest else rest)

/-- `filteredEvents` from the source: one pass over the batch keeping the
events whose four predicates all pass. -/
def filteredEvents (tz now : Int) (f : SearchFilters) (events : List CalEvent) :
    Except String (List CalEvent) :=
  filterE (eventPasses tz now f) events

/-- Total view of the locality heuristic: the value `isHomeGame` returns
when it returns, and `false` where the code would raise. -/
def isLocalEventOf (e : CalEvent) : Bool := (isHomeGame e).toOption.getD false

/-- The character preceding the current scan position after consuming a
further list of characters: `lastOr prev pre` is the last character of
`pre`, or `prev` when `pre` is empty. -/
def lastOr (prev : Option Char) : List Char → Option Char
  | [] => prev
  | c :: rest => lastOr (some c) rest

/-! ## Concrete test fixtures -/

/-- A non-sports event whose searchable text contains the phrase
"deep learning models" and no other term of the `ml`/`machine learning`
expansion sets. -/
def evtDeepLearning : CalEvent :=
  ⟨some "1", some "Colloquium", some "Statistics Department", some "2024-06-12",
   some "5pm", some "Evans Hall", some "deep learning models", some ["Academic"], some "u"⟩

/-- A sports event located away from Berkeley. -/
def evtStanford : CalEvent :=
  ⟨some "2", some "Big Game", some "Athletics", some "2024-06-05",
   some "7pm", some "Stanford, CA", some "Rivalry game", some ["Sports"], some "u"⟩

/-- The same sports event located at a Berkeley venue. -/
def evtHaas : CalEvent :=
  ⟨some "3", some "Big Game", some "Athletics", some "2024-06-05",
   some "7pm", some "Haas Pavilion, Berkeley, CA", some "Rivalry game", some ["Sports"], some "u"⟩

/-- A sports event whose `location` field is absent/null. -/
def evtNoLocation : CalEvent :=
  ⟨some "4", some "Road Game", some "Athletics", some "2024-06-05",
   some "7pm", none, some "Watch party", some ["Sports"], some "u"⟩

/-- An event whose title is "Training Session". -/
def evtTraining : CalEvent :=
  ⟨some "5", some "Training Session", some "", some "2024-06-12",
   some "9am", some "RSF", some "", some [], some "u"⟩

/-- An event whose title is "AI Ethics Talk". -/
def evtAiTalk : CalEvent :=
  ⟨some "6", some "AI Ethics Talk", some "", some "2024-06-12",
   some "9am", some "Wheeler", some "", some [], some "u"⟩

/-- A well-formed event dated 2024-06-12. -/
def evtGoodDate : CalEvent :=
  ⟨some "7", some "Seminar", some "EECS", some "2024-06-12",
   some "3pm", some "Soda Hall", some "systems", some ["Academic"], some "u"⟩

/-- An event whose `date` field is unparsable. -/
def evtBadDate : CalEvent :=
  ⟨some "8", some "Mystery", some "Club", some "soon",
   some "3pm", some "TBA", some "surprise", some ["Academic"], some "u"⟩

/-! ## Basic lemmas about the string machinery -/

theorem prefixAt_iff (n h : List Char) : prefixAt n h = true ↔ ∃ t, h = n ++ t := by
  induction n generalizing h with
  | nil => simp [prefixAt]
  | cons a ns ih =>
    cases h with
    | nil => simp [prefixAt]
    | cons b hs =>
      simp only [prefixAt, Bool.and_eq_true, beq_iff_eq, ih, List.cons_append]
      constructor
      · rintro ⟨rfl, t, rfl⟩
        exact ⟨t, rfl⟩
      · rintro ⟨t, ht⟩
        rw [List.cons.injEq] at ht
        exact ⟨ht.1.symm, t, ht.2⟩

theorem subOccurs_iff (n h : List Char) :
    subOccurs n h = true ↔ ∃ pre post, h = pre ++ n ++ post := by
  induction h with
  | nil =>
    simp only [subOccurs, prefixAt_iff]
    constructor
    · rintro ⟨t, ht⟩
      exact ⟨[], t, by simpa using ht⟩
    · rintro ⟨pre, post, hp⟩
      have := hp.symm
      simp only [List.append_assoc, List.append_eq_nil] at this
      exact ⟨[], by simp [this.1, this.2.1]⟩
  | cons c rest ih =>
    simp only [subOccurs, Bool.or_eq_true, prefixAt_iff, ih]
    constructor
    · rintro (⟨t, ht⟩ | ⟨pre, post, hp⟩)
      · exact ⟨[], t, by simpa using ht⟩
      · exact ⟨c :: pre, post, by simp [hp]⟩
    · rintro ⟨pre, post, hp⟩
      cases pre with
      | nil => exact Or.inl ⟨post, by simpa using hp⟩
      | cons c' pre' =>
        simp only [List.cons_append, List.cons.injEq] at hp
        exact Or.inr ⟨pre', post, hp.2⟩


theorem wwScan_iff (term : List Char) (prev : Option Char) (hay : List Char) :
    wwScan term prev hay = true ↔
      ∃ pre post, hay = pre ++ term ++ post
        ∧ boundaryBefore (lastOr prev pre) = true
        ∧ boundaryAfter post = true := by
  induction hay generalizing prev with
  | nil =>
    constructor
    · intro h
      simp only [wwScan, Bool.and_eq_true, prefixAt_iff] at h
      obtain ⟨⟨⟨t, ht⟩, hb⟩, ha⟩ := h
      have h2 := ht.symm
      rw [List.append_eq_nil] at h2
      refine ⟨[], [], by simp [h2.1], by simpa [lastOr] using hb, rfl⟩
    · rintro ⟨pre, post, hp, hb, ha⟩
      have hp' := hp.symm
      rw [List.append_eq_nil] at hp'
      obtain ⟨hpt, hpost⟩ := hp'
      rw [List.append_eq_nil] at hpt
      obtain ⟨hpre, hterm⟩ := hpt
      subst hpre
      subst hpost
      subst hterm
      simp only [wwScan, Bool.and_eq_true, prefixAt_iff]
      exact ⟨⟨⟨[], rfl⟩, by simpa [lastOr] using hb⟩, rfl⟩
  | cons c rest ih =>
    constructor
    · intro h
      simp only [wwScan, Bool.or_eq_true, Bool.and_eq_true] at h
      rcases h with ⟨⟨hpfx, hb⟩, ha⟩ | h
      · rw [prefixAt_iff] at hpfx
        obtain ⟨t, ht⟩ := hpfx
        refine ⟨[], t, by simpa using ht, by simpa [lastOr] using hb, ?_⟩
        rw [ht, List.drop_left] at ha
        exact ha
      · rw [ih (some c)] at h
        obtain ⟨pre, post, hp, hb, ha⟩ := h
        exact ⟨c :: pre, post, by simp [hp], by simpa [lastOr] using hb, ha⟩
    · rintro ⟨pre, post, hp, hb, ha⟩
      simp only [wwScan, Bool.or_eq_true, Bool.and_eq_true]
      cases pre with
      | nil =>
        simp only [List.nil_append] at hp
        refine Or.inl ⟨⟨?_, by simpa [lastOr] using hb⟩, ?_⟩
        · rw [prefixAt_iff]
          exact ⟨post, hp⟩
        · rw [hp, List.drop_left]
          exact ha
      | cons c' pre' =>
        rw [List.cons_append, List.cons_append, List.cons.injEq] at hp
        obtain ⟨hcc, hp2⟩ := hp
        subst hcc
        refine Or.inr ?_
        rw [ih (some c)]
        exact ⟨pre', post, hp2, by simpa [lastOr] using hb, ha⟩

theorem mem_dedupAux (y : String) (l : List String) :
    ∀ seen, y ∈ dedupAux seen l ↔ y ∈ l ∧ y ∉ seen := by
  induction l with
  | nil => intro seen; simp [dedupAux]
  | cons x xs ih =>
    intro seen
    by_cases hx : x ∈ seen
    · simp only [dedupAux, if_pos hx, ih]
      constructor
      · rintro ⟨h1, h2⟩
        exact ⟨List.mem_cons_of_mem _ h1, h2⟩
      · rintro ⟨hy, h2⟩
        rcases List.mem_cons.mp hy with rfl | hy'
        · exact absurd hx h2
        · exact ⟨hy', h2⟩
    · simp only [dedupAux, if_neg hx]
      constructor
      · intro hy
        rcases List.mem_cons.mp hy with rfl | hy'
        · exact ⟨List.mem_cons_self _ _, hx⟩
        · obtain ⟨h1, h2⟩ := (ih (x :: seen)).mp hy'
          exact ⟨List.mem_cons_of_mem _ h1, fun hc => h2 (List.mem_cons_of_mem _ hc)⟩
      · rintro ⟨hy, hns⟩
        rcases List.mem_cons.mp hy with rfl | hy'
        · exact List.mem_cons_self _ _
        · by_cases hyx : y = x
          · subst hyx
            exact List.mem_cons_self _ _
          · refine List.mem_cons_of_mem _ ((ih (x :: seen)).mpr ⟨hy', ?_⟩)
            intro hc
            rcases List.mem_cons.mp hc with h | h
            · exact hyx h
            · exact hns h

theorem nodup_dedupAux (l : List String) : ∀ seen, (dedupAux seen l).Nodup := by
  induction l with
  | nil => intro seen; simp [dedupAux]
  | cons x xs ih =>
    intro seen
    by_cases hx : x ∈ seen
    · simpa [dedupAux, if_pos hx] using ih seen
    · simp only [dedupAux, if_neg hx, List.nodup_cons]
      refine ⟨?_, ih (x :: seen)⟩
      rw [mem_dedupAux]
      simp

theorem mem_dedupList (y : String) (l : List String) : y ∈ dedupList l ↔ y ∈ l := by
  simp [dedupList, mem_dedupAux]

theorem nodup_dedupList (l : List String) : (dedupList l).Nodup := nodup_dedupAux l []

theorem mem_synFold (qw : List String) (n t : String) (l : List (String × List String)) :
    ∀ acc : List String,
      (t ∈ l.foldl
        (fun acc kv => if kv.1 ∈ qw || kv.1 == n then acc ++ kv.2 else acc) acc) ↔
      t ∈ acc ∨ ∃ kv, kv ∈ l ∧ (kv.1 ∈ qw ∨ kv.1 = n) ∧ t ∈ kv.2 := by
  induction l with
  | nil => intro acc; simp
  | cons p ps ih =>
    intro acc
    rw [List.foldl_cons]
    by_cases hp : p.1 ∈ qw ∨ p.1 = n
    · have hcond : (decide (p.1 ∈ qw) || p.1 == n) = true := by
        rcases hp with h | h
        · simp [h]
        · simp [h]
      rw [if_pos hcond, ih]
      constructor
      · rintro (hacc | ⟨kv, hkv, hc, ht⟩)
        · rcases List.mem_append.mp hacc with h | h
          · exact Or.inl h
          · exact Or.inr ⟨p, List.mem_cons_self _ _, hp, h⟩
        · exact Or.inr ⟨kv, List.mem_cons_of_mem _ hkv, hc, ht⟩
      · rintro (hacc | ⟨kv, hkv, hc, ht⟩)
        · exact Or.inl (List.mem_append.mpr (Or.inl hacc))
        · rcases List.mem_cons.mp hkv with rfl | hkv'
          · exact Or.inl (List.mem_append.mpr (Or.inr ht))
          · exact Or.inr ⟨kv, hkv', hc, ht⟩
    · have hcond : (decide (p.1 ∈ qw) || p.1 == n) = false := by
        push_neg at hp
        simp [hp.1, hp.2]
      rw [if_neg (by simp [hcond]), ih]
      constructor
      · rintro (hacc | ⟨kv, hkv, hc, ht⟩)
        · exact Or.inl hacc
        · exact Or.inr ⟨kv, List.mem_cons_of_mem _ hkv, hc, ht⟩
      · rintro (hacc | ⟨kv, hkv, hc, ht⟩)
        · exact Or.inl hacc
        · rcases List.mem_cons.mp hkv with rfl | hkv'
          · exact absurd hc hp
          · exact Or.inr ⟨kv, hkv', hc, ht⟩

theorem mem_expandedTermsOf (q t : String) :
    t ∈ expandedTermsOf q ↔
      t = trimStr (lowerStr q)
      ∨ ∃ kv, kv ∈ SEARCH_SYNONYMS
          ∧ (kv.1 = trimStr (lowerStr q) ∨ kv.1 ∈ splitWsWords (trimStr (lowerStr q)))
          ∧ t ∈ kv.2 := by
  rw [expandedTermsOf]
  rw [mem_dedupList, mem_synFold]
  constructor
  · rintro (hacc | ⟨kv, hkv, hc, ht⟩)
    · rcases List.mem_append.mp hacc with h | h
      · exact Or.inl (List.mem_singleton.mp h)
      · rcases hsyn : synLookup (trimStr (lowerStr q)) with _ | syns
        · rw [hsyn] at h
          simp at h
        · rw [hsyn] at h
          obtain ⟨p, hfind, hv⟩ := Option.map_eq_some'.mp hsyn
          refine Or.inr ⟨p, List.mem_of_find?_eq_some hfind, Or.inl ?_, hv ▸ h⟩
          have := List.find?_some hfind
          exact beq_iff_eq.mp this
    · exact Or.inr ⟨kv, hkv, hc.symm, ht⟩
  · rintro (rfl | ⟨kv, hkv, hc, ht⟩)
    · exact Or.inl (List.mem_append.mpr (Or.inl (List.mem_singleton.mpr rfl)))
    · exact Or.inr ⟨kv, hkv, hc.symm, ht⟩

theorem filterE_eq_ok (p : CalEvent → Except String Bool) (l : List CalEvent)
    (h : ∀ e ∈ l, ∃ b, p e = Except.ok b) :
    filterE p l = Except.ok (l.filter (fun e => (p e).toOption.getD false)) := by
  induction l with
  | nil => rfl
  | cons e es ih =>
    obtain ⟨b, hb⟩ := h e (List.mem_cons_self e es)
    have ih' := ih (fun x hx => h x (List.mem_cons_of_mem _ hx))
    rw [List.filter_cons]
    simp only [filterE, hb, ih', Except.bind, Except.toOption, Option.getD, bind, pure,
      Except.pure]

theorem termMatches_iff (hay term : String) :
    termMatches hay term = true ↔
      ((term ∈ WHOLE_WORD_ONLY
        ∧ ∃ pre post, hay.data = pre ++ term.data ++ post
            ∧ boundaryBefore (lastOr none pre) = true ∧ boundaryAfter post = true)
      ∨ (term ∉ WHOLE_WORD_ONLY
        ∧ ∃ pre post, hay.data = pre ++ term.data ++ post)) := by
  by_cases hww : term ∈ WHOLE_WORD_ONLY
  · simp [termMatches, hww, wholeWordTest, wwScan_iff]
  · simp [termMatches, hww, strIncludes, subOccurs_iff]

/-! ## The claims -/

/-- C1: for every batch, filter state and reference instant (and timezone),
as long as the two fallible predicates return on every event — the search
expansion does not hit an inherited `Object.prototype` key (that error
path is part of C6's correction) and the locality heuristic returns on
every event of the batch (the case where it raises is claim C2's
subject) — the filter pipeline returns exactly the events on which all
four predicates (category, date window, search, locality) hold, as a
`List.filter` of the input — hence in the input's relative order,
witnessed additionally by a `Sublist` fact — and when the trimmed
`searchQuery` is empty the search predicate is skipped, i.e. passes for
every event. -/
theorem C1_filteredEvents_exactly_and_ordered (tz now : Int) (f : SearchFilters)
    (events : List CalEvent)
    (hq : ∃ ts, expandSearchQuery (trimStr f.searchQuery) = Except.ok ts)
    (hok : ∀ e ∈ events, ∃ b, isHomeGame e = Except.ok b) :
    filteredEvents tz now f events =
      Except.ok (events.filter (fun e =>
        matchesCategoryOf f.category e
        && matchesDateOf tz now f.dateRange e.date
        && matchesSearchPure f.searchQuery e
        && isLocalEventOf e))
    ∧ (events.filter (fun e =>
        matchesCategoryOf f.category e
        && matchesDateOf tz now f.dateRange e.date
        && matchesSearchPure f.searchQuery e
        && isLocalEventOf e)).Sublist events
    ∧ (trimStr f.searchQuery = "" →
        ∀ e : CalEvent, matchesSearchOf f.searchQuery e = Except.ok true) := by
  obtain ⟨ts, hts⟩ := hq
  have hms : ∀ e : CalEvent, ∃ b, matchesSearchOf f.searchQuery e = Except.ok b := by
    intro e
    by_cases hsq : trimStr f.searchQuery == ""
    · exact ⟨true, by simp [matchesSearchOf, hsq]⟩
    · exact ⟨eventMatchesSearch e ts,
        by simp [matchesSearchOf, hsq, hts, bind, Except.bind, pure, Except.pure]⟩
  refine ⟨?_, List.filter_sublist _, ?_⟩
  · have h1 : ∀ e ∈ events, ∃ b, eventPasses tz now f e = Except.ok b := by
      intro e he
      obtain ⟨bs, hbs⟩ := hms e
      obtain ⟨b, hb⟩ := hok e he
      exact ⟨matchesCategoryOf f.category e && matchesDateOf tz now f.dateRange e.date
        && bs && b, by simp [eventPasses, hbs, hb, bind, Except.bind, pure, Except.pure]⟩
    rw [filteredEvents, filterE_eq_ok _ _ h1]
    congr 1
    apply List.filter_congr
    intro e he
    obtain ⟨bs, hbs⟩ := hms e
    obtain ⟨b, hb⟩ := hok e he
    simp [eventPasses, hbs, hb, bind, Except.bind, pure, Except.pure, isLocalEventOf,
      matchesSearchPure, Except.toOption]
  · intro hqe e
    simp [matchesSearchOf, hqe]

/-- Witness for C1 at a concrete batch, filter state and instant
(2024-06-10T12:00 US Pacific, `tz = -420`). -/
theorem C1_filteredEvents_witness :
    (∃ ts, expandSearchQuery (trimStr "ai") = Except.ok ts)
    ∧ (∀ e ∈ [evtStanford, evtHaas], ∃ b, isHomeGame e = Except.ok b)
    ∧ (filteredEvents (-420) 28634100 ⟨"upcoming", "All", "ai"⟩ [evtStanford, evtHaas] =
        Except.ok ([evtStanford, evtHaas].filter (fun e =>
          matchesCategoryOf "All" e
          && matchesDateOf (-420) 28634100 "upcoming" e.date
          && matchesSearchPure "ai" e
          && isLocalEventOf e))
      ∧ ([evtStanford, evtHaas].filter (fun e =>
          matchesCategoryOf "All" e
          && matchesDateOf (-420) 28634100 "upcoming" e.date
          && matchesSearchPure "ai" e
          && isLocalEventOf e)).Sublist [evtStanford, evtHaas]
      ∧ (trimStr "ai" = "" →
          ∀ e : CalEvent, matchesSearchOf "ai" e = Except.ok true)) := by
  have hq : ∃ ts, expandSearchQuery (trimStr "ai") = Except.ok ts := ⟨_, rfl⟩
  have hok : ∀ e ∈ [evtStanford, evtHaas], ∃ b, isHomeGame e = Except.ok b := by
    intro e he
    fin_cases he
    · exact ⟨false, rfl⟩
    · exact ⟨true, rfl⟩
  exact ⟨hq, hok, C1_filteredEvents_exactly_and_ordered (-420) 28634100
    ⟨"upcoming", "All", "ai"⟩ [evtStanford, evtHaas] hq hok⟩

/-- C2 (evaluation at the failing input): a sports-tagged event whose
`location` field is absent makes `isHomeGame` evaluate
`event.location.toLowerCase()` on `undefined`; the resulting `TypeError`
propagates out of the whole filter pass, aborting it — contrary to the
claim that such a field degrades to a failing predicate for that one
event. -/
theorem C2_typeerror_escapes_pipeline :
    filteredEvents (-420) 28634100 ⟨"upcoming", "All", ""⟩ [evtGoodDate, evtNoLocation] =
      Except.error "TypeError: cannot read toLowerCase of undefined location" := by
  rfl

/-- C3: the locality heuristic returns `ok true` for every event whose
tags contain no case-insensitive "sport" substring; for a sports-tagged
event with a present location it returns `ok true` exactly when the
lowercased location contains some entry of the Berkeley allowlist; in
particular the Stanford-located sports event is excluded and the
Haas-Pavilion one included. -/
theorem C3_locality_heuristic :
    (∀ e : CalEvent,
      ¬ (∃ t ∈ e.tags.getD [], strIncludes (lowerStr t) "sport" = true) →
      isHomeGame e = Except.ok true)
    ∧ (∀ (e : CalEvent) (loc : String),
      (∃ t ∈ e.tags.getD [], strIncludes (lowerStr t) "sport" = true) →
      e.location = some loc →
      (isHomeGame e = Except.ok true ↔
        ∃ l ∈ BERKELEY_LOCATIONS, strIncludes (lowerStr loc) l = true))
    ∧ isHomeGame evtStanford = Except.ok false
    ∧ isHomeGame evtHaas = Except.ok true := by
  refine ⟨?_, ?_, by rfl, by rfl⟩
  · intro e hns
    have hs : isSportsEventOf e = false := by
      rw [isSportsEventOf, List.any_eq_false]
      intro t ht
      simp only [Bool.not_eq_true]
      by_contra hc
      exact hns ⟨t, ht, by simpa using hc⟩
    simp [isHomeGame, hs]
  · intro e loc hs hloc
    have hsb : isSportsEventOf e = true := by
      rw [isSportsEventOf, List.any_eq_true]
      obtain ⟨t, ht, hp⟩ := hs
      exact ⟨t, ht, hp⟩
    rw [isHomeGame, hsb]
    simp only [Bool.not_true, Bool.false_eq_true, if_false, hloc]
    rw [show (Except.ok (BERKELEY_LOCATIONS.any fun l => strIncludes (lowerStr loc) l) =
        (Except.ok true : Except String Bool)) ↔
        (BERKELEY_LOCATIONS.any fun l => strIncludes (lowerStr loc) l) = true from
      by simp]
    rw [List.any_eq_true]

/-- Witness for C3: the non-sports branch at the deep-learning fixture and
the sports branch at the Stanford fixture. -/
theorem C3_locality_witness :
    (¬ (∃ t ∈ evtDeepLearning.tags.getD [], strIncludes (lowerStr t) "sport" = true)
      ∧ isHomeGame evtDeepLearning = Except.ok true)
    ∧ ((∃ t ∈ evtStanford.tags.getD [], strIncludes (lowerStr t) "sport" = true)
      ∧ evtStanford.location = some "Stanford, CA"
      ∧ (isHomeGame evtStanford = Except.ok true ↔
          ∃ l ∈ BERKELEY_LOCATIONS, strIncludes (lowerStr "Stanford, CA") l = true)) :=
  ⟨⟨by decide, C3_locality_heuristic.1 evtDeepLearning (by decide)⟩,
   ⟨by decide, rfl,
    C3_locality_heuristic.2.1 evtStanford "Stanford, CA" (by decide) rfl⟩⟩

/-- C4 (evaluation at the failing input): in the US-Pacific zone
(`tz = -420` minutes), with `now` = 2024-06-10T12:00 local (epoch minute
28634100), the `today` predicate rejects an event dated 2024-06-10 and
accepts an event dated 2024-06-11: the code parses the event's date as UTC
midnight but compares calendar days in the local zone, so the claimed
"same calendar day, no off-by-one" semantics fails west of UTC. -/
theorem C4_today_inconsistent_zone_eval :
    matchesDateOf (-420) 28634100 "today" (some "2024-06-10") = false
    ∧ matchesDateOf (-420) 28634100 "today" (some "2024-06-11") = true := by
  constructor
  · rfl
  · rfl

/-- C5 (evaluation at the failing inputs): with `now` = 2024-06-10T00:00
local in a UTC+2 zone (epoch minute 28632840), the `week` predicate
rejects an event dated 2024-06-17 — though the claim requires the 7-days-out
endpoint to be included; and with `now` = 2024-06-10T23:30 local in the
US-Pacific zone (epoch minute 28634790), it accepts an event dated
2024-06-18 — though that date is 8 days out, beyond the claimed inclusive
`[todayMidnight, todayMidnight + 7 days]` window.  The upper bound the
code computes carries `now`'s time of day and the event instant is the UTC
midnight of its date, not a local one. -/
theorem C5_week_boundary_eval :
    matchesDateOf 120 28632840 "week" (some "2024-06-17") = false
    ∧ matchesDateOf (-420) 28634790 "week" (some "2024-06-18") = true := by
  constructor
  · rfl
  · rfl

/-- C6 (counterexample): the claim quantifies over every query string,
but `expandSearchQuery` does not return a term set at all for the queries
"constructor" and "__proto__": the property access
`SEARCH_SYNONYMS[normalized]` finds a truthy value inherited from
`Object.prototype` and spreading it raises a TypeError. -/
theorem C6_counterexample_proto_query :
    expandSearchQuery "constructor" =
      Except.error "TypeError: spread of non-iterable inherited property"
    ∧ expandSearchQuery "__proto__" =
      Except.error "TypeError: spread of non-iterable inherited property" := by
  exact ⟨rfl, rfl⟩

/-- C6 (amended): for every query whose normalized (lowercased, trimmed)
form is not an inherited `Object.prototype` property name ("constructor",
"__proto__") — on those the function instead throws a TypeError — the
expansion returns a term list that contains the normalized query,
contains no duplicates, and contains a term through the vocabulary
exactly when some entry's key equals the whole normalized query or one of
its whitespace-delimited words and the term is among that entry's related
terms — so a key that is merely a substring of a query word contributes
nothing, e.g. the terms for "smart" are just `["smart"]` although "art"
is a key. -/
theorem C6_expansion_characterization (q : String)
    (h : trimStr (lowerStr q) ∉ PROTO_CHAIN_KEYS) :
    expandSearchQuery q = Except.ok (expandedTermsOf q)
    ∧ trimStr (lowerStr q) ∈ expandedTermsOf q
    ∧ (expandedTermsOf q).Nodup
    ∧ (∀ t : String,
        t ∈ expandedTermsOf q ↔
          t = trimStr (lowerStr q)
          ∨ ∃ kv, kv ∈ SEARCH_SYNONYMS
              ∧ (kv.1 = trimStr (lowerStr q) ∨ kv.1 ∈ splitWsWords (trimStr (lowerStr q)))
              ∧ t ∈ kv.2)
    ∧ expandedTermsOf "smart" = ["smart"] := by
  refine ⟨?_, ?_, nodup_dedupList _, mem_expandedTermsOf q, by rfl⟩
  · simp [expandSearchQuery, h]
  · rw [mem_expandedTermsOf]
    exact Or.inl rfl

/-- Witness for C6 (amended) at the query "smart". -/
theorem C6_expansion_witness :
    trimStr (lowerStr "smart") ∉ PROTO_CHAIN_KEYS
    ∧ (expandSearchQuery "smart" = Except.ok (expandedTermsOf "smart")
      ∧ trimStr (lowerStr "smart") ∈ expandedTermsOf "smart"
      ∧ (expandedTermsOf "smart").Nodup
      ∧ (∀ t : String,
          t ∈ expandedTermsOf "smart" ↔
            t = trimStr (lowerStr "smart")
            ∨ ∃ kv, kv ∈ SEARCH_SYNONYMS
                ∧ (kv.1 = trimStr (lowerStr "smart")
                    ∨ kv.1 ∈ splitWsWords (trimStr (lowerStr "smart")))
                ∧ t ∈ kv.2)
      ∧ expandedTermsOf "smart" = ["smart"]) :=
  ⟨by decide, C6_expansion_characterization "smart" (by decide)⟩

/-- C7: a term of the fixed short-token set matches only as a whole word
(an occurrence flanked by non-word characters or string edges) in the
lowercased title+description+organizer+tags haystack, while any other
term matches by plain substring containment; "ai" does not match a
"Training Session" title but does match an "AI Ethics Talk" title. -/
theorem C7_whole_word_vs_substring :
    (∀ (e : CalEvent) (terms : List String),
      eventMatchesSearch e terms = true ↔
        ∃ term, term ∈ terms ∧
          ((term ∈ WHOLE_WORD_ONLY
            ∧ ∃ pre post, (searchableTextOf e).data = pre ++ term.data ++ post
                ∧ boundaryBefore (lastOr none pre) = true ∧ boundaryAfter post = true)
          ∨ (term ∉ WHOLE_WORD_ONLY
            ∧ ∃ pre post, (searchableTextOf e).data = pre ++ term.data ++ post)))
    ∧ eventMatchesSearch evtTraining ["ai"] = false
    ∧ eventMatchesSearch evtAiTalk ["ai"] = true := by
  refine ⟨?_, by rfl, by rfl⟩
  intro e terms
  rw [eventMatchesSearch, List.any_eq_true]
  constructor
  · rintro ⟨term, hmem, hm⟩
    exact ⟨term, hmem, (termMatches_iff _ _).mp hm⟩
  · rintro ⟨term, hmem, hm⟩
    exact ⟨term, hmem, (termMatches_iff _ _).mpr hm⟩

/-- C8 (counterexample): for the fixture whose searchable text contains
the phrase "deep learning models" (and no other expansion term), searching
"ml" does NOT match the event even after synonym expansion — refuting the
claim that expanded "ml" and expanded "machine learning" both match it:
the `ml` entry's related terms do not include "deep learning". -/
theorem C8_counterexample_ml_expansion :
    strIncludes (searchableTextOf evtDeepLearning) "deep learning models" = true
    ∧ expandSearchQuery "ml" = Except.ok (expandedTermsOf "ml")
    ∧ eventMatchesSearch evtDeepLearning (expandedTermsOf "ml") = false := by
  exact ⟨rfl, rfl, rfl⟩

/-- C8 (amended): plain literal searches for "ml" and for
"machine learning" both fail on the deep-learning fixture; after synonym
expansion, "machine learning" matches it (its related terms include
"deep learning") while "ml" still does not (its related terms do not). -/
theorem C8_amended_expansion_asymmetry :
    eventMatchesSearch evtDeepLearning ["ml"] = false
    ∧ eventMatchesSearch evtDeepLearning ["machine learning"] = false
    ∧ expandSearchQuery "machine learning" = Except.ok (expandedTermsOf "machine learning")
    ∧ eventMatchesSearch evtDeepLearning (expandedTermsOf "machine learning") = true
    ∧ expandSearchQuery "ml" = Except.ok (expandedTermsOf "ml")
    ∧ eventMatchesSearch evtDeepLearning (expandedTermsOf "ml") = false := by
  exact ⟨rfl, rfl, rfl, rfl, rfl, rfl⟩

/-- C9: an event whose `date` field does not parse fails the date
predicate under `today` and under `week` (no error is raised — the
predicate is a total boolean), still passes it under `upcoming`, and does
not disturb the rest of the batch: a concrete two-event batch containing a
malformed-date event filters to exactly its well-formed survivor. -/
theorem C9_malformed_date_fails_closed (tz now : Int) (s : String)
    (h : jsParseDate s = none) :
    matchesDateOf tz now "today" (some s) = false
    ∧ matchesDateOf tz now "week" (some s) = false
    ∧ matchesDateOf tz now "upcoming" (some s) = true
    ∧ filteredEvents (-420) 28634100 ⟨"week", "All", ""⟩ [evtGoodDate, evtBadDate] =
        Except.ok [evtGoodDate] := by
  refine ⟨?_, ?_, by rfl, by rfl⟩
  · simp [matchesDateOf, h]
  · simp [matchesDateOf, h]

/-- Witness for C9 at the malformed date string "soon" (and, through the
last conjunct, the concrete two-event batch). -/
theorem C9_malformed_witness :
    jsParseDate "soon" = none
    ∧ (matchesDateOf (-420) 28634100 "today" (some "soon") = false
      ∧ matchesDateOf (-420) 28634100 "week" (some "soon") = false
      ∧ matchesDateOf (-420) 28634100 "upcoming" (some "soon") = true
      ∧ filteredEvents (-420) 28634100 ⟨"week", "All", ""⟩ [evtGoodDate, evtBadDate] =
          Except.ok [evtGoodDate]) :=
  ⟨rfl, C9_malformed_date_fails_closed (-420) 28634100 "soon" rfl⟩

/-- C10: the reserved `dateRange` values `month` and `weekend` fall
through the `today`/`week` branches, so the date predicate is
unconditionally true for them, exactly as for `upcoming`. -/
theorem C10_reserved_ranges_unrestricted (tz now : Int) (d : Option String) :
    matchesDateOf tz now "month" d = true
    ∧ matchesDateOf tz now "weekend" d = true
    ∧ matchesDateOf tz now "upcoming" d = true := by
  refine ⟨?_, ?_, ?_⟩ <;> cases d <;> rfl
